import Mathlib

/-!
Verification of the dependency resolver / relocator core of `maxutils`
(`src/maxutils/fixer.py`, class `Fixer` and the module-level helpers).

The Python code shells out to `otool -L`, `install_name_tool`, `codesign`,
`shutil.copyfile` and `os.chmod`.  We embed the code over an explicit
filesystem model: a `World` maps path strings to Mach-O binaries, where a
binary carries its install-name line (`id?`, shown first by `otool -L` on a
dylib), its linked-library reference lines (`deps`), and a writability flag
(`install_name_tool` exits non-zero on a missing or unwritable target, and
`otool` fails on a missing file).  `otool` output is modelled at the parsed
granularity of the regex `\s*(\S+)\s*\(compatibility version .+\)$` used by
the source: the header line never matches, each reference line yields its
path.  Python exceptions are modelled as an `Err` value returned next to the
(already mutated) state, since raising does not roll back `self` or the
filesystem.  `get_short_version` (a regex scan of the Versions directory,
irrelevant to the claims) is modelled as the `short_version` field of the
`Fixer` record.
-/

namespace Maxutils

/-! ## String and path helpers (mirroring `str.startswith`, `os.path.split`,
`os.path.join`, `str.rstrip`, `os.path.splitext`) -/

/-- Boolean character-list version of `str.startswith`. -/
def chPre : List Char → List Char → Bool
  | [], _ => true
  | _ :: _, [] => false
  | a :: as, b :: bs => a == b && chPre as bs

/-- `s.startswith(pre)` on strings. -/
def hasPre (s pre : String) : Bool := chPre pre.data s.data

/-- Drop trailing slashes of a character list. -/
def dropEndSlashes (cs : List Char) : List Char :=
  (cs.reverse.dropWhile (fun c => c == '/')).reverse

/-- The head part of `os.path.split`: everything before the last slash,
stripped of trailing slashes unless it consists only of slashes. -/
def splitHead (cs : List Char) : List Char :=
  if ((cs.reverse.drop ((cs.reverse.takeWhile (fun c => c != '/')).length)).reverse.all
      (fun c => c == '/'))
  then (cs.reverse.drop ((cs.reverse.takeWhile (fun c => c != '/')).length)).reverse
  else dropEndSlashes ((cs.reverse.drop ((cs.reverse.takeWhile (fun c => c != '/')).length)).reverse)

/-- `os.path.split`: split a path at its last slash. -/
def splitPath (p : String) : String × String :=
  if ((p.data.reverse.takeWhile (fun c => c != '/')).length = p.data.length) then ("", p)
  else (⟨splitHead p.data⟩, ⟨(p.data.reverse.takeWhile (fun c => c != '/')).reverse⟩)

/-- `os.path.basename`. -/
def baseName (p : String) : String := (splitPath p).2

/-- `os.path.join` for two components. -/
def joinPath (a b : String) : String :=
  if hasPre b "/" then b
  else if a = "" then b
  else if a.data.getLast? = some '/' then a ++ b
  else a ++ "/" ++ b

/-- `str.rstrip(chars)`: drop trailing characters belonging to `chars`. -/
def rstripChars (s : String) (chars : List Char) : String :=
  ⟨(s.data.reverse.dropWhile (fun c => c ∈ chars)).reverse⟩

/-- `os.path.splitext` on a slash-free name: split at the last dot, unless
every character before it is a dot. -/
def splitextPy (s : String) : String × String :=
  let r := s.data.reverse
  let extRev := r.takeWhile (fun c => c != '.')
  if extRev.length = s.data.length then (s, "")
  else
    let rootRev := r.drop (extRev.length + 1)
    if rootRev.all (fun c => c == '.') then (s, "")
    else (⟨rootRev.reverse⟩, ⟨('.' :: extRev.reverse.reverse).reverse.reverse⟩)

/-! ## Filesystem and external-tool model -/

/-- A Mach-O file: optional install-name line (shown first by `otool -L` on a
dylib), linked-library reference lines, and whether `install_name_tool` can
modify it (missing or unwritable targets make the tool exit non-zero). -/
structure Bin where
  id? : Option String
  deps : List String
  writable : Bool
deriving DecidableEq

/-- The filesystem: an association list from path to file. -/
abbrev World := List (String × Bin)

def lookupW : World → String → Option Bin
  | [], _ => none
  | (k, v) :: rest, p => if k = p then some v else lookupW rest p

/-- Create or overwrite a file. -/
def setW : World → String → Bin → World
  | [], p, b => [(p, b)]
  | (k, v) :: rest, p, b => if k = p then (p, b) :: rest else (k, v) :: setW rest p b

/-- The reference lines of `otool -L` output for one file (header stripped,
compatibility annotations already removed by the regex). -/
def otoolList (b : Bin) : List String :=
  (match b.id? with | some i => [i] | none => []) ++ b.deps

/-- `subprocess.check_output(["otool", "-L", target])`, parsed; `none` models
the `CalledProcessError` raised for a missing file. -/
def otoolLines (w : World) (p : String) : Option (List String) :=
  (lookupW w p).map otoolList

/-- Is `p` exactly `dir ++ "/" ++ name` with slash-free `name`? -/
def isChildOf (dir p : String) : Bool :=
  hasPre p (dir ++ "/") &&
    (let rest := p.data.drop (dir.data.length + 1)
     !rest.isEmpty && !rest.contains '/')

/-- `list(Path(dir).iterdir())`; `none` models the error on a directory with
no entries in the model (a missing directory raises in Python; the flat model
identifies a directory with the set of files directly under it). -/
def iterdirW (w : World) (dir : String) : Option (List String) :=
  let l := (w.filter (fun pb => isChildOf dir pb.1)).map (fun pb => pb.1)
  if l.isEmpty then none else some l

/-- External mutating commands the pipeline can issue. -/
inductive Cmd
  | change (old new target : String)
  | setid (new target : String)
  | copyf (src dst : String)
  | sign (path : String)
deriving DecidableEq

/-- One issued command together with its exit code. -/
structure LogEntry where
  cmd : Cmd
  code : Nat
deriving DecidableEq

/-- `install_name_tool -change old new target`: exit 0 and rewrite every
matching reference when the target exists and is writable, else exit 1. -/
def runChange (w : World) (old nw target : String) : Nat × World :=
  match lookupW w target with
  | none => (1, w)
  | some b =>
      if b.writable then
        (0, setW w target { b with deps := b.deps.map (fun r => if r = old then nw else r) })
      else (1, w)

/-- `install_name_tool -id new target`. -/
def runSetid (w : World) (nw target : String) : Nat × World :=
  match lookupW w target with
  | none => (1, w)
  | some b =>
      if b.writable then (0, setW w target { b with id? := some nw })
      else (1, w)

/-! ## The `Fixer` data model -/

/-- Python exceptions of the pipeline. `fuelOut` is the marker the fuelled
embedding returns instead of diverging. -/
inductive Err
  | fuelOut
  | otoolFail (target : String)
  | iterdirFail (dir : String)
  | valueError
  | runtimeChange (old nw target : String)
  | copyFail (src : String)
  | staticlibsUnset
  | signFail (path : String)
deriving DecidableEq

/-- The `type=` argument of `Fixer.get_dependencies`. -/
inductive DType
  | python_dylib
  | extensions
  | executables
deriving DecidableEq

/-- One per-`type` inner dictionary of `self.install_names`: basename of a
scanned binary to its set of (old reference, new reference) items, in
insertion order. -/
abbrev Inner := List (String × List (String × String))

/-- `self.install_names = {"python_dylib": {}, "extensions": {}, "executables": {}}`. -/
structure InstallNames where
  python_dylib : Inner
  extensions : Inner
  executables : Inner
deriving DecidableEq

def InstallNames.get (n : InstallNames) : DType → Inner
  | .python_dylib => n.python_dylib
  | .extensions => n.extensions
  | .executables => n.executables

def InstallNames.set (n : InstallNames) : DType → Inner → InstallNames
  | .python_dylib, i => { n with python_dylib := i }
  | .extensions, i => { n with extensions := i }
  | .executables, i => { n with executables := i }

/-- `d[key] = v` on an inner dictionary. -/
def setEntry : Inner → String → List (String × String) → Inner
  | [], k, v => [(k, v)]
  | (k', v') :: rest, k, v => if k' = k then (k, v) :: rest else (k', v') :: setEntry rest k v

/-- `d[key].add(item)` on an inner dictionary (`set.add` ignores duplicates). -/
def addItem : Inner → String → String × String → Inner
  | [], k, it => [(k, [it])]
  | (k', v') :: rest, k, it =>
      if k' = k then (k', if it ∈ v' then v' else v' ++ [it]) :: rest
      else (k', v') :: addItem rest k it

/-- Mutable state of a `Fixer` run: the filesystem plus the object fields
`self.dependencies`, `self.dep_list`, `self.install_names`, together with a
log of the external mutating commands issued and a ghost trace of the targets
`get_dependencies` was called on. -/
structure St where
  world : World
  deps : List String
  dep_list : List (String × String)
  names : InstallNames
  log : List LogEntry
  trace : List String
deriving DecidableEq

abbrev Res := St × Option Err

/-- Fresh state over a world. -/
def st0 (w : World) : St := ⟨w, [], [], ⟨[], [], []⟩, [], []⟩

/-- Sequencing with Python exception propagation (state is kept, since a
raise does not undo mutations). -/
def andThen (r : Res) (k : St → Res) : Res :=
  match r with
  | (st, none) => k st
  | (st, some e) => (st, some e)

/-- Constructor-time configuration of a `Fixer` (`Fixer.__init__`). -/
structure Fixer where
  framework_path : String
  short_version : String
  dest_dir : String
  staticlibs_dir : String
  exec_ref : String
deriving DecidableEq

/-- `Fixer.prefix`: `framework_path / "Versions" / short_version`. -/
def pfxDir (f : Fixer) : String :=
  joinPath (joinPath f.framework_path "Versions") f.short_version

/-- `Fixer.prefix_bin`. -/
def pfxBin (f : Fixer) : String := joinPath (pfxDir f) "bin"

/-- `Fixer.prefix_lib`. -/
def pfxLib (f : Fixer) : String := joinPath (pfxDir f) "lib"

/-- `Fixer.python_lib`. -/
def pythonLib (f : Fixer) : String := joinPath (pfxLib f) ("python" ++ f.short_version)

/-- `Fixer.python_dylib`. -/
def pythonDylib (f : Fixer) : String := joinPath (pfxDir f) "Python"

/-- `Fixer.lib_dynload`. -/
def libDynload (f : Fixer) : String := joinPath (pythonLib f) "lib-dynload"

/-- `Fixer.is_valid_path`: true iff the path is empty or starts with one of
the configured local-install prefixes. -/
def is_valid_path (dep_path : String) : Bool :=
  dep_path == ""
    || hasPre dep_path "/opt/local/"
    || hasPre dep_path "/usr/local/"
    || hasPre dep_path "/Users/"
    || hasPre dep_path "/tmp/"

/-- `Fixer.get_target_references`: the `otool -L` lines whose full path
string `is_valid_path` classifies as local. -/
def get_target_references (w : World) (target : String) : Option (List String) :=
  (otoolLines w target).map (fun lines => lines.filter (fun path => is_valid_path path))

/-- Normalization applied by `get_dependencies` and `transform_exec` to a
reference whose directory component is empty:
`path = os.path.join("/usr/local/lib", dep_filename)`. -/
def normRef (e : String) : String :=
  if (splitPath e).1 = "" then joinPath "/usr/local/lib" (splitPath e).2 else e

/-- The entry loop of `Fixer.get_dependencies`, with the recursive scan of a
newly discovered path supplied as `gd`. -/
def depsLoopF (gd : String → DType → St → Res) (tk : DType) (key : String) :
    List String → St → Res
  | [], st => (st, none)
  | e :: rest, st =>
    if is_valid_path (splitPath e).1 then
      let path := normRef e
      let df2 := (splitPath path).2
      let st1 := { st with names := st.names.set tk (addItem (st.names.get tk) key (path, "@rpath/" ++ df2)) }
      if path ∈ st1.deps then depsLoopF gd tk key rest st1
      else
        let st2 := { st1 with deps := st1.deps ++ [path] }
        match gd path tk st2 with
        | (st3, none) => depsLoopF gd tk key rest st3
        | (st3, some err) => (st3, some err)
    else depsLoopF gd tk key rest st

/-- `Fixer.get_dependencies`, fuelled: record an empty item set for the
target basename, scan its references, recurse on each newly seen local
path. -/
def getDeps : Nat → String → DType → St → Res
  | 0 => fun _ _ st => (st, some Err.fuelOut)
  | fuel + 1 => fun target tk st =>
      let key := baseName target
      let st1 := { st with
        names := st.names.set tk (setEntry (st.names.get tk) key [])
        trace := st.trace ++ [target] }
      match otoolLines st1.world target with
      | none => (st1, some (Err.otoolFail target))
      | some lines => depsLoopF (getDeps fuel) tk key lines st1

/-- Scan a list of files with `get_dependencies`. -/
def getDepsMany (fuel : Nat) (tk : DType) : List String → St → Res
  | [], st => (st, none)
  | t :: rest, st =>
      match getDeps fuel t tk st with
      | (st1, none) => getDepsMany fuel tk rest st1
      | (st1, some e) => (st1, some e)

/-- The pruning pass of `Fixer.get_all_dependencies`: delete inner entries
with an empty item set. -/
def pruneNames (n : InstallNames) : InstallNames :=
  ⟨n.python_dylib.filter (fun kv => !kv.2.isEmpty),
   n.extensions.filter (fun kv => !kv.2.isEmpty),
   n.executables.filter (fun kv => !kv.2.isEmpty)⟩

/-- `Fixer.get_all_dependencies`. -/
def get_all_dependencies (f : Fixer) (fuel : Nat) (st : St) : Res :=
  andThen (getDeps fuel (pythonDylib f) DType.python_dylib st) fun st =>
  andThen (match iterdirW st.world (libDynload f) with
           | none => (st, some (Err.iterdirFail (libDynload f)))
           | some files => getDepsMany fuel DType.extensions files st) fun st =>
  andThen (match iterdirW st.world (pfxBin f) with
           | none => (st, some (Err.iterdirFail (pfxBin f)))
           | some files => getDepsMany fuel DType.executables files st) fun st =>
  ({ st with names := pruneNames st.names }, none)

/-- `Fixer.process_deps`. -/
def process_deps (st : St) : Res :=
  ({ st with dep_list := st.dep_list ++ st.deps.map (fun d => (d, "@rpath/" ++ (splitPath d).2)) }, none)

/-- `shutil.copyfile(src, dst)` followed by `os.chmod(dst, 0o644)`: the new
file gets the source content and is writable; a missing source raises. -/
def doCopy (st : St) (src dst : String) : Res :=
  match lookupW st.world src with
  | none => (st, some (Err.copyFail src))
  | some b =>
      ({ st with
          world := setW st.world dst { b with writable := true }
          log := st.log ++ [⟨Cmd.copyf src dst, 0⟩] }, none)

/-- Loop of `Fixer.copy_staticlibs`. -/
def cslLoop (f : Fixer) : List String → St → Res
  | [], st => (st, none)
  | i :: rest, st =>
    let head := (splitPath i).1
    let tl := (splitPath i).2
    let name0 := rstripChars tl ['.', 'd', 'y', 'l', 'i', 'b']
    let name := if name0.data.contains '.' then (splitextPy name0).1 ++ ".a" else name0
    let static := joinPath head name
    match lookupW st.world static with
    | some _ =>
        match doCopy st static (joinPath f.staticlibs_dir name) with
        | (st1, none) => cslLoop f rest st1
        | (st1, some e) => (st1, some e)
    | none => cslLoop f rest st

/-- `Fixer.copy_staticlibs`. -/
def copy_staticlibs (f : Fixer) (st : St) : Res :=
  if f.staticlibs_dir = "" then (st, some Err.staticlibsUnset)
  else cslLoop f st.deps st

/-- Loop of `Fixer.copy_dylibs`: copy to `prefix_lib / basename` only when
the destination does not already exist. -/
def cdLoop (f : Fixer) : List (String × String) → St → Res
  | [], st => (st, none)
  | item :: rest, st =>
    let dylib := (splitPath item.1).2
    let dest := joinPath (pfxLib f) dylib
    match lookupW st.world dest with
    | some _ => cdLoop f rest st
    | none =>
        match doCopy st item.1 dest with
        | (st1, none) => cdLoop f rest st1
        | (st1, some e) => (st1, some e)

/-- `Fixer.copy_dylibs`. -/
def copy_dylibs (f : Fixer) (st : St) : Res := cdLoop f st.dep_list st

/-- The command construction of `Fixer.change_install_names`: id-style when
the key equals the basename of the old reference, change-style otherwise. -/
def cinCmd (key old nw target : String) : Cmd :=
  if key = (splitPath old).2 then Cmd.setid nw target else Cmd.change old nw target

def runCmdTool (w : World) : Cmd → Nat × World
  | Cmd.change old nw target => runChange w old nw target
  | Cmd.setid nw target => runSetid w nw target
  | Cmd.copyf _ _ => (0, w)
  | Cmd.sign _ => (0, w)

/-- Python tuple unpacking `old, new = dep` applied to a string: succeeds
exactly when the string has two characters, else a `ValueError`. -/
def unpack2 (s : String) : Option (String × String) :=
  match s.data with
  | [a, b] => some (String.mk [a], String.mk [b])
  | _ => none

/-- Inner loop of `Fixer.change_install_names` over one inner dictionary:
iterating a dict yields its keys, so `old, new = dep` unpacks the basename
string. -/
def cinLoop (key target : String) : Inner → St → Res
  | [], st => (st, none)
  | (bkey, _) :: rest, st =>
    match unpack2 bkey with
    | some (old, nw) =>
        let cmd := cinCmd key old nw target
        let code := (runCmdTool st.world cmd).1
        let w' := (runCmdTool st.world cmd).2
        let st1 := { st with world := w', log := st.log ++ [⟨cmd, code⟩] }
        if code ≠ 0 then (st1, some (Err.runtimeChange old nw target))
        else cinLoop key target rest st1
    | none => (st, some Err.valueError)

/-- `Fixer.change_install_names`: `sorted(self.install_names.keys())` is
`["executables", "extensions", "python_dylib"]`. -/
def change_install_names (f : Fixer) (st : St) : Res :=
  andThen (cinLoop "executables" (joinPath f.dest_dir "executables") st.names.executables st) fun st =>
  andThen (cinLoop "extensions" (joinPath f.dest_dir "extensions") st.names.extensions st) fun st =>
  cinLoop "python_dylib" (joinPath f.dest_dir "python_dylib") st.names.python_dylib st

/-- Loop of `Fixer.transform_exec`: rewrite each local reference of the
executable to `os.path.join(exec_ref, basename)`, ignoring the exit code of
`subprocess.call`. -/
def teLoop (f : Fixer) (target : String) : List String → St → Res
  | [], st => (st, none)
  | e :: rest, st =>
    if is_valid_path (splitPath e).1 then
      let path := normRef e
      let df2 := (splitPath path).2
      let dest := joinPath f.exec_ref df2
      let (code, w') := runChange st.world path dest target
      teLoop f target rest { st with world := w', log := st.log ++ [⟨Cmd.change path dest target, code⟩] }
    else teLoop f target rest st

/-- `Fixer.transform_exec`. -/
def transform_exec (f : Fixer) (target : String) (st : St) : Res :=
  match otoolLines st.world target with
  | none => (st, some (Err.otoolFail target))
  | some lines => teLoop f target lines st

/-- `Fixer.process`: scan, list, copy static libs, copy dylibs, rewrite
install names, transform the hardcoded executable `"./eg"`. -/
def process (f : Fixer) (fuel : Nat) (st : St) : Res :=
  andThen (get_all_dependencies f fuel st) fun st =>
  andThen (process_deps st) fun st =>
  andThen (copy_staticlibs f st) fun st =>
  andThen (copy_dylibs f st) fun st =>
  andThen (change_install_names f st) fun st =>
  transform_exec f "./eg" st

/-- Module-level `fix_broken_signatures`: ad-hoc re-sign each given file with
`codesign -s - --deep --force
--preserve-metadata=identifier,entitlements,flags,runtime`;
`subprocess.check_call` raises on failure (modelled: missing file). -/
def fix_broken_signatures : List String → St → Res
  | [], st => (st, none)
  | p :: rest, st =>
    match lookupW st.world p with
    | some _ => fix_broken_signatures rest { st with log := st.log ++ [⟨Cmd.sign p, 0⟩] }
    | none => ({ st with log := st.log ++ [⟨Cmd.sign p, 1⟩] }, some (Err.signFail p))

/-- Is a log entry a codesign invocation? -/
def isSignE (e : LogEntry) : Bool :=
  match e.cmd with
  | Cmd.sign _ => true
  | _ => false

/-- All local reference paths mentioned anywhere in a world, normalized the
way `get_dependencies` normalizes them; the universe the traversal can
discover. -/
def univLocal (w : World) : List String :=
  ((w.map (fun pb =>
      ((otoolList pb.2).filter (fun e => is_valid_path (splitPath e).1)).map normRef)).flatten).dedup

/-- How many discoverable paths are not yet recorded. -/
def countLeft (w : World) (deps : List String) : Nat :=
  ((univLocal w).filter (fun q => decide (q ∉ deps))).length

/-- Number of codesign invocations in a log. -/
def countSigns (l : List LogEntry) : Nat := l.countP (fun x => isSignE x)

/-- Is a log entry a file copy? -/
def isCopyE (x : LogEntry) : Bool :=
  match x.cmd with
  | Cmd.copyf _ _ => true
  | _ => false

/-- The monotonicity contract a single recursive scan satisfies: the world,
log and dep list are untouched, and the recorded dependencies only grow. -/
def GdMono (gd : String → DType → St → Res) : Prop :=
  ∀ t tk st, (gd t tk st).1.world = st.world ∧ (gd t tk st).1.log = st.log ∧
    (gd t tk st).1.dep_list = st.dep_list ∧ st.deps <+: (gd t tk st).1.deps

/-- The success contract: a completed scan appends exactly the paths it
expanded, in order, each new, each with a non-empty directory component. -/
def GdDelta (gd : String → DType → St → Res) : Prop :=
  ∀ t tk st st1, gd t tk st = (st1, none) → ∃ d,
    st1.deps = st.deps ++ d ∧ st1.trace = st.trace ++ t :: d ∧ d.Nodup ∧
    (∀ p ∈ d, p ∉ st.deps) ∧ (∀ p ∈ d, (splitPath p).1 ≠ "")

/-- The run from `st` to `st1` only appended non-codesign log entries. -/
def LogExt (st st1 : St) : Prop :=
  ∃ nw, st1.log = st.log ++ nw ∧ ∀ x ∈ nw, isSignE x = false

/-! ## Concrete worlds used as inputs for the executable checks -/

/-- A fixer over a framework `fw` with short version `v`, destination
directory `d`, static-libs directory `s` and executable back-reference `E`. -/
def fx : Fixer := ⟨"fw", "v", "d", "s", "E"⟩

/-- A cyclic dependency graph: `A` links `B`, `B` links `C`, `C` links `B`. -/
def cycleWorld : World :=
  [ ("A", ⟨none, ["/usr/local/lib/B"], true⟩),
    ("/usr/local/lib/B", ⟨none, ["/usr/local/lib/C"], true⟩),
    ("/usr/local/lib/C", ⟨none, ["/usr/local/lib/B"], true⟩) ]

/-- A framework world on which `process` completes without raising: the lone
binary with local references sits in `bin` under a two-character name (the
only shape that survives the string unpacking in `change_install_names`),
its local dependency `/usr/local/lib/zz` carries itself as install name, the
hardcoded rewrite targets `d/executables` and `./eg` exist. -/
def procWorld : World :=
  [ ("fw/Versions/v/Python", ⟨none, ["/usr/lib/libSystem.B.dylib"], true⟩),
    ("fw/Versions/v/lib/pythonv/lib-dynload/m.so", ⟨none, ["/usr/lib/libSystem.B.dylib"], true⟩),
    ("fw/Versions/v/bin/ab", ⟨none, ["/usr/local/lib/zz"], true⟩),
    ("/usr/local/lib/zz", ⟨some "/usr/local/lib/zz", ["/usr/lib/libSystem.B.dylib"], true⟩),
    ("d/executables", ⟨none, [], true⟩),
    ("./eg", ⟨none, ["/usr/local/lib/zz"], true⟩) ]

/-- Two distinct local dependencies with the same basename `x.dylib`. -/
def collideWorld : World :=
  [ ("t", ⟨none, ["/usr/local/lib/x.dylib", "/opt/local/lib/x.dylib"], true⟩),
    ("/usr/local/lib/x.dylib", ⟨none, ["/usr/lib/one"], true⟩),
    ("/opt/local/lib/x.dylib", ⟨none, ["/usr/lib/two"], true⟩) ]

/-- The state after scanning the colliding world. -/
def collideSt : St := (getDeps 5 "t" DType.executables (st0 collideWorld)).1

/-- A world whose executable `./eg` exists but is not writable: every
`install_name_tool` run on it exits non-zero. -/
def execWorld : World :=
  [ ("./eg", ⟨none, ["/usr/local/lib/p", "/usr/local/lib/q"], false⟩) ]

/-- Install names holding one discovered dependency pair under the
`executables` type, over an empty filesystem, so the rewrite target
`d/executables` is missing and the tool fails. -/
def cinFailSt : St :=
  { st0 [] with names := ⟨[], [], [("ab", [("/usr/local/lib/zz", "@rpath/zz")])]⟩ }

/-- One local dylib to materialize. -/
def copyWorld : World :=
  [ ("/usr/local/lib/a.dylib", ⟨some "/usr/local/lib/a.dylib", [], true⟩) ]

/-- State with that dylib discovered in `dep_list`. -/
def copySt : St :=
  { st0 copyWorld with dep_list := [("/usr/local/lib/a.dylib", "@rpath/a.dylib")] }

/-- A binary `X` holding a reference with an empty directory component. -/
def bareWorld : World :=
  [ ("X", ⟨none, ["libfoo.dylib"], true⟩),
    ("/usr/local/lib/libfoo.dylib", ⟨none, [], true⟩) ]

/-! ## Generic list and string lemmas -/

theorem chPre_ex : ∀ pre s : List Char, chPre pre s = true → ∃ t, s = pre ++ t := by
  intro pre
  induction pre with
  | nil => intro s _; exact ⟨s, rfl⟩
  | cons a as ih =>
    intro s h
    cases s with
    | nil => simp [chPre] at h
    | cons b bs =>
      simp only [chPre, Bool.and_eq_true, beq_iff_eq] at h
      obtain ⟨t, ht⟩ := ih bs h.2
      exact ⟨t, by simp [h.1, ht]⟩

theorem chPre_snd (c a b : Char) (as bs : List Char) (h : (a == b) = false) :
    chPre (c :: a :: as) (c :: b :: bs) = false := by
  simp [chPre, h]

theorem strData (s t : String) : (s ++ t).data = s.data ++ t.data := by
  cases s; cases t; rfl

theorem tw_all {q : Char → Bool} : ∀ l : List Char,
    (l.takeWhile q).length = l.length → ∀ a ∈ l, q a = true := by
  intro l
  induction l with
  | nil => simp
  | cons c cs ih =>
    intro h a ha
    cases hc : q c with
    | true =>
      rw [List.takeWhile_cons, if_pos (by simp [hc])] at h
      simp only [List.length_cons, Nat.succ.injEq] at h
      rcases List.mem_cons.mp ha with rfl | hmem
      · exact hc
      · exact ih h a hmem
    | false =>
      rw [List.takeWhile_cons, if_neg (by simp [hc])] at h
      simp only [List.length_nil, List.length_cons] at h
      omega

theorem dw_all {q : Char → Bool} : ∀ l : List Char,
    l.dropWhile q = [] → ∀ a ∈ l, q a = true := by
  intro l
  induction l with
  | nil => simp
  | cons c cs ih =>
    intro h a ha
    cases hc : q c with
    | true =>
      rw [List.dropWhile_cons, if_pos (by simp [hc])] at h
      rcases List.mem_cons.mp ha with rfl | hmem
      · exact hc
      · exact ih h a hmem
    | false =>
      rw [List.dropWhile_cons, if_neg (by simp [hc])] at h
      exact absurd h (by simp)

theorem splitHead_ne {cs : List Char}
    (hlen : ¬ (cs.reverse.takeWhile (fun c => c != '/')).length = cs.length) :
    splitHead cs ≠ [] := by
  unfold splitHead
  have hne : cs.reverse.drop ((cs.reverse.takeWhile (fun c => c != '/')).length) ≠ [] := by
    intro hnil
    apply hlen
    have hle : (cs.reverse.takeWhile (fun c => c != '/')).length ≤ cs.reverse.length :=
      (List.takeWhile_sublist _).length_le
    have hz : cs.reverse.length - (cs.reverse.takeWhile (fun c => c != '/')).length = 0 := by
      rw [← List.length_drop, hnil]; rfl
    have : (cs.reverse.takeWhile (fun c => c != '/')).length = cs.reverse.length := by omega
    simpa using this
  split
  · simpa using hne
  · rename_i hallsl
    intro hcon
    have hdw : ((cs.reverse.drop ((cs.reverse.takeWhile (fun c => c != '/')).length)).reverse.reverse.dropWhile
        (fun c => c == '/')) = [] := by
      have := congrArg List.reverse hcon
      simpa [dropEndSlashes] using hcon
    exfalso
    apply hallsl
    simp only [List.all_eq_true]
    intro c hc
    have hrev : c ∈ (cs.reverse.drop ((cs.reverse.takeWhile (fun c => c != '/')).length)).reverse.reverse := by
      simpa using (by simpa using hc : c ∈ cs.reverse.drop _)
    exact dw_all _ hdw c hrev

theorem splitPath_fst_ne {p : String} (h : '/' ∈ p.data) : (splitPath p).1 ≠ "" := by
  unfold splitPath
  split
  · rename_i hlen
    exfalso
    have hall := tw_all (q := fun c => c != '/') p.data.reverse
      (by simpa using hlen) '/' (by simpa using h)
    simp at hall
  · rename_i hlen
    intro hcon
    exact splitHead_ne hlen (congrArg String.data hcon)

theorem joinPath_local_slash (df : String) : '/' ∈ (joinPath "/usr/local/lib" df).data := by
  unfold joinPath
  split
  · rename_i hp
    obtain ⟨t, ht⟩ := chPre_ex _ _ hp
    rw [ht]
    simp
  · split
    · rename_i hemp; exact absurd hemp (by decide)
    · split
      · rename_i hlast; exact absurd hlast (by decide)
      · rw [strData, strData]
        simp

theorem normRef_dir_ne (e : String) : (splitPath (normRef e)).1 ≠ "" := by
  unfold normRef
  split
  · exact splitPath_fst_ne (joinPath_local_slash _)
  · assumption

/-! ## Association list lemmas -/

theorem lookupW_mem : ∀ (w : World) (p : String) (b : Bin),
    lookupW w p = some b → (p, b) ∈ w := by
  intro w
  induction w with
  | nil => intro p b h; simp [lookupW] at h
  | cons kv rest ih =>
    intro p b h
    obtain ⟨k, v⟩ := kv
    rw [lookupW] at h
    split at h
    · rename_i heq
      simp only [Option.some.injEq] at h
      subst heq
      subst h
      exact List.mem_cons_self _ _
    · exact List.mem_cons_of_mem _ (ih p b h)

theorem lookup_setW : ∀ (w : World) (p q : String) (b : Bin),
    lookupW (setW w p b) q = if q = p then some b else lookupW w q := by
  intro w
  induction w with
  | nil =>
    intro p q b
    by_cases h : q = p
    · subst h; simp [setW, lookupW]
    · have h2 : ¬ p = q := fun hh => h hh.symm
      simp [setW, lookupW, h, h2]
  | cons kv rest ih =>
    intro p q b
    obtain ⟨k, v⟩ := kv
    simp only [setW]
    split
    · rename_i hkp
      subst hkp
      simp only [lookupW]
      by_cases hq : k = q
      · subst hq; simp
      · have hq2 : ¬ q = k := fun hh => hq hh.symm
        simp [hq, hq2]
    · rename_i hkp
      simp only [lookupW, ih]
      by_cases hkq : k = q
      · subst hkq
        have hqp : ¬ k = p := hkp
        simp [hqp]
      · simp [hkq]

theorem setW_keeps {w : World} {q : String} (p : String) (b : Bin)
    (h : lookupW w q ≠ none) : lookupW (setW w p b) q ≠ none := by
  rw [lookup_setW]
  split
  · simp
  · exact h

/-! ## Filter counting lemmas -/

theorem filter_len_mono {f g : String → Bool} :
    ∀ l : List String, (∀ a, g a = true → f a = true) →
      (l.filter g).length ≤ (l.filter f).length := by
  intro l h
  induction l with
  | nil => simp
  | cons c cs ih =>
    simp only [List.filter_cons]
    by_cases hc : g c = true
    · rw [if_pos hc, if_pos (h c hc)]
      simpa using ih
    · rw [if_neg hc]
      by_cases hf : f c = true
      · rw [if_pos hf]
        exact le_trans ih (Nat.le_succ _)
      · rw [if_neg hf]
        exact ih

theorem filter_len_dec {deps : List String} {p : String} :
    ∀ l : List String, l.Nodup → p ∈ l → p ∉ deps →
      (l.filter (fun q => decide (q ∉ deps ++ [p]))).length + 1 =
        (l.filter (fun q => decide (q ∉ deps))).length := by
  intro l
  induction l with
  | nil => simp
  | cons c cs ih =>
    intro hnd hmem hpd
    have hnd2 := List.nodup_cons.mp hnd
    rcases List.mem_cons.mp hmem with rfl | hmem2
    · have hc1 : (decide (p ∉ deps ++ [p])) = false := by simp
      have hc2 : (decide (p ∉ deps)) = true := by simp [hpd]
      simp only [List.filter_cons, hc1, hc2]
      have heq : cs.filter (fun q => decide (q ∉ deps ++ [p])) =
          cs.filter (fun q => decide (q ∉ deps)) := by
        apply List.filter_congr
        intro x hx
        have hxc : ¬ x = p := by intro hh; exact hnd2.1 (hh ▸ hx)
        simp [hxc]
      rw [heq]
      simp
    · have hcp : c ≠ p := by intro hh; exact hnd2.1 (hh ▸ hmem2)
      have hsame : (decide (c ∉ deps ++ [p])) = (decide (c ∉ deps)) := by
        simp [hcp]
      simp only [List.filter_cons, hsame]
      split
      · simp only [List.length_cons]
        have := ih hnd2.2 hmem2 hpd
        omega
      · exact ih hnd2.2 hmem2 hpd

theorem cl_empty (w : World) : countLeft w [] = (univLocal w).length := by
  unfold countLeft
  simp

theorem cl_mono {w : World} {deps deps' : List String} (h : ∀ a, a ∈ deps → a ∈ deps') :
    countLeft w deps' ≤ countLeft w deps := by
  apply filter_len_mono
  intro a ha
  simp only [decide_eq_true_eq] at ha ⊢
  intro hmem
  exact ha (h a hmem)

theorem cl_dec {w : World} {deps : List String} {p : String}
    (hu : p ∈ univLocal w) (hd : p ∉ deps) :
    countLeft w (deps ++ [p]) + 1 = countLeft w deps :=
  filter_len_dec _ (List.nodup_dedup _) hu hd

theorem univ_mem {w : World} {t : String} {b : Bin} {e : String}
    (hl : lookupW w t = some b) (he : e ∈ otoolList b)
    (hv : is_valid_path (splitPath e).1 = true) : normRef e ∈ univLocal w := by
  unfold univLocal
  rw [List.mem_dedup, List.mem_flatten]
  refine ⟨((otoolList b).filter (fun x => is_valid_path (splitPath x).1)).map normRef, ?_, ?_⟩
  · refine List.mem_map.mpr ⟨(t, b), lookupW_mem w t b hl, rfl⟩
  · exact List.mem_map.mpr ⟨e, List.mem_filter.mpr ⟨he, hv⟩, rfl⟩

/-! ## Structural lemmas about the dependency traversal -/

theorem loop_mono {gd : String → DType → St → Res} (Hm : GdMono gd) (tk : DType) (key : String) :
    ∀ (entries : List String) (st : St),
      (depsLoopF gd tk key entries st).1.world = st.world ∧
      (depsLoopF gd tk key entries st).1.log = st.log ∧
      (depsLoopF gd tk key entries st).1.dep_list = st.dep_list ∧
      st.deps <+: (depsLoopF gd tk key entries st).1.deps := by
  intro entries
  induction entries with
  | nil => intro st; simp [depsLoopF]
  | cons e rest ih =>
    intro st
    simp only [depsLoopF]
    split
    · split
      · exact ih _
      · rcases hgd : gd (normRef e) tk _ with ⟨st3, e?⟩
        obtain ⟨hw, hl, hd, hp⟩ := Hm _ tk _
        rw [hgd] at hw hl hd hp
        cases e? with
        | none =>
          obtain ⟨hw2, hl2, hd2, hp2⟩ := ih st3
          refine ⟨by rw [hw2, hw], by rw [hl2, hl], by rw [hd2, hd], ?_⟩
          refine List.IsPrefix.trans ?_ (List.IsPrefix.trans hp hp2)
          exact ⟨_, rfl⟩
        | some err =>
          refine ⟨hw, hl, hd, ?_⟩
          exact List.IsPrefix.trans ⟨_, rfl⟩ hp
    · exact ih _

theorem getDeps_mono : ∀ fuel : Nat, GdMono (getDeps fuel) := by
  intro fuel
  induction fuel with
  | zero => intro t tk st; simp [getDeps]
  | succ n ih =>
    intro t tk st
    simp only [getDeps]
    split
    · simp
    · exact loop_mono ih _ _ _ _

theorem loop_delta {gd : String → DType → St → Res} (Hd : GdDelta gd)
    (tk : DType) (key : String) :
    ∀ (entries : List String) (st st1 : St),
      depsLoopF gd tk key entries st = (st1, none) → ∃ d,
        st1.deps = st.deps ++ d ∧ st1.trace = st.trace ++ d ∧ d.Nodup ∧
        (∀ p ∈ d, p ∉ st.deps) ∧ (∀ p ∈ d, (splitPath p).1 ≠ "") := by
  intro entries
  induction entries with
  | nil =>
    intro st st1 h
    simp only [depsLoopF, Prod.mk.injEq] at h
    exact ⟨[], by simp [← h.1]⟩
  | cons e rest ih =>
    intro st st1 h
    simp only [depsLoopF] at h
    split at h
    · rename_i hvalid
      split at h
      · -- path already recorded: names-only update, recurse on rest
        obtain ⟨d, h1, h2, h3, h4, h5⟩ := ih _ _ h
        exact ⟨d, h1, h2, h3, h4, h5⟩
      · rename_i hnotmem
        rcases hgd : gd (normRef e) tk _ with ⟨st3, e?⟩
        rw [hgd] at h
        cases e? with
        | none =>
          obtain ⟨d1, g1, g2, g3, g4, g5⟩ := Hd _ tk _ _ hgd
          obtain ⟨d2, k1, k2, k3, k4, k5⟩ := ih _ _ h
          simp only at g1 g2 g4
          set path := normRef e with hpath
          refine ⟨path :: (d1 ++ d2), ?_, ?_, ?_, ?_, ?_⟩
          · rw [k1, g1]; simp
          · rw [k2, g2]; simp
          · rw [List.nodup_cons]
            constructor
            · intro hmem
              rcases List.mem_append.mp hmem with h1 | h2
              · exact g4 path h1 (by simp)
              · exact k4 path h2 (by rw [g1]; simp)
            · rw [List.nodup_append]
              refine ⟨g3, k3, ?_⟩
              intro x hx1 hx2
              exact k4 x hx2 (by rw [g1]; exact List.mem_append.mpr (Or.inr hx1))
          · intro p hp
            rcases List.mem_cons.mp hp with rfl | hp2
            · simpa using hnotmem
            · rcases List.mem_append.mp hp2 with h1 | h2
              · intro hmem; exact g4 p h1 (by simp [List.mem_append.mpr (Or.inl hmem)])
              · intro hmem; exact k4 p h2 (by rw [g1]; simp [List.mem_append.mpr (Or.inl hmem)])
          · intro p hp
            rcases List.mem_cons.mp hp with rfl | hp2
            · rw [hpath]; exact normRef_dir_ne e
            · rcases List.mem_append.mp hp2 with h1 | h2
              · exact g5 p h1
              · exact k5 p h2
        | some err => simp at h
    · obtain ⟨d, h1, h2, h3, h4, h5⟩ := ih _ _ h
      exact ⟨d, h1, h2, h3, h4, h5⟩

theorem getDeps_delta : ∀ fuel : Nat, GdDelta (getDeps fuel) := by
  intro fuel
  induction fuel with
  | zero => intro t tk st st1 h; simp [getDeps] at h
  | succ n ih =>
    intro t tk st st1 h
    simp only [getDeps] at h
    split at h
    · simp at h
    · rename_i lines hlines
      obtain ⟨d, h1, h2, h3, h4, h5⟩ := loop_delta ih _ _ lines _ _ h
      refine ⟨d, by simpa using h1, ?_, h3, by simpa using h4, h5⟩
      simp only at h2
      rw [h2]
      simp

/-- Termination: with fuel exceeding the count of not-yet-recorded
discoverable paths, the traversal never runs out of fuel — on any graph,
cyclic ones included. -/
theorem loop_fuel {gd : String → DType → St → Res} {fuelN : Nat} (Hm : GdMono gd)
    (Hf : ∀ t tk st, countLeft st.world st.deps < fuelN → (gd t tk st).2 ≠ some Err.fuelOut)
    (tk : DType) (key : String) :
    ∀ (entries : List String) (st : St), countLeft st.world st.deps ≤ fuelN →
      (∀ e ∈ entries, is_valid_path (splitPath e).1 = true → normRef e ∈ univLocal st.world) →
      (depsLoopF gd tk key entries st).2 ≠ some Err.fuelOut := by
  intro entries
  induction entries with
  | nil => intro st _ _; simp [depsLoopF]
  | cons e rest ih =>
    intro st hcl hents
    simp only [depsLoopF]
    split
    · rename_i hvalid
      split
      · exact ih _ (by simpa using hcl) (fun x hx => by simpa using hents x (List.mem_cons_of_mem _ hx))
      · rename_i hnotmem
        have hpuniv : normRef e ∈ univLocal st.world :=
          hents e (List.mem_cons_self _ _) hvalid
        have hdec : countLeft st.world (st.deps ++ [normRef e]) + 1 = countLeft st.world st.deps :=
          cl_dec hpuniv (by simpa using hnotmem)
        rcases hgd : gd (normRef e) tk _ with ⟨st3, e?⟩
        have hflt : countLeft st.world (st.deps ++ [normRef e]) < fuelN := by omega
        cases e? with
        | none =>
          obtain ⟨hw, _, _, hp⟩ := Hm (normRef e) tk
            ({ st with
                names := st.names.set tk (addItem (st.names.get tk) key
                  (normRef e, "@rpath/" ++ (splitPath (normRef e)).2))
                deps := st.deps ++ [normRef e] })
          rw [hgd] at hw hp
          simp only at hw hp
          apply ih st3
          · rw [hw]
            calc countLeft st.world st3.deps
                ≤ countLeft st.world (st.deps ++ [normRef e]) :=
                  cl_mono (fun a ha => hp.subset ha)
              _ ≤ fuelN := by omega
          · intro x hx hvx
            rw [hw]
            exact hents x (List.mem_cons_of_mem _ hx) hvx
        | some err =>
          have := Hf (normRef e) tk
            ({ st with
                names := st.names.set tk (addItem (st.names.get tk) key
                  (normRef e, "@rpath/" ++ (splitPath (normRef e)).2))
                deps := st.deps ++ [normRef e] }) (by simpa using hflt)
          rw [hgd] at this
          simpa using this
    · exact ih _ (by simpa using hcl) (fun x hx => by simpa using hents x (List.mem_cons_of_mem _ hx))

theorem getDeps_fuel : ∀ (fuel : Nat) (t : String) (tk : DType) (st : St),
    countLeft st.world st.deps < fuel → (getDeps fuel t tk st).2 ≠ some Err.fuelOut := by
  intro fuel
  induction fuel with
  | zero => intro t tk st h; exact absurd h (Nat.not_lt_zero _)
  | succ n ih =>
    intro t tk st h
    simp only [getDeps]
    split
    · simp
    · rename_i b hlines
      apply loop_fuel (getDeps_mono n) ih
      · simpa using Nat.lt_succ_iff.mp h
      · intro e he hv
        have hlines2 : (lookupW st.world t).map otoolList = some b := hlines
        rcases hlk : lookupW st.world t with _ | bb
        · rw [hlk] at hlines2; simp at hlines2
        · rw [hlk] at hlines2
          simp only [Option.map_some', Option.some.injEq] at hlines2
          exact univ_mem hlk (by rw [hlines2]; exact he) hv

/-- Every valid entry of a successfully scanned binary ends up recorded (in
normalized form) in the final dependency list. -/
theorem loop_records {gd : String → DType → St → Res} (Hm : GdMono gd)
    (tk : DType) (key : String) :
    ∀ (entries : List String) (st st1 : St),
      depsLoopF gd tk key entries st = (st1, none) →
      ∀ e ∈ entries, is_valid_path (splitPath e).1 = true → normRef e ∈ st1.deps := by
  intro entries
  induction entries with
  | nil => simp
  | cons e rest ih =>
    intro st st1 h x hx hvx
    simp only [depsLoopF] at h
    split at h
    · rename_i hvalid
      split at h
      · rename_i hmem
        rcases List.mem_cons.mp hx with rfl | hx2
        · obtain ⟨_, _, _, hp⟩ := loop_mono Hm tk key rest
            { st with names := st.names.set tk (addItem (st.names.get tk) key
                (normRef x, "@rpath/" ++ (splitPath (normRef x)).2)) }
          have hm2 : normRef x ∈ st.deps := by simpa using hmem
          have hfin : normRef x ∈ ((depsLoopF gd tk key rest
            { st with names := st.names.set tk (addItem (st.names.get tk) key
                (normRef x, "@rpath/" ++ (splitPath (normRef x)).2)) }).1).deps := by
            apply hp.subset
            simpa using hm2
          rw [h] at hfin
          simpa using hfin
        · exact ih _ _ h x hx2 hvx
      · rename_i hnotmem
        rcases hgd : gd (normRef e) tk _ with ⟨st3, e?⟩
        rw [hgd] at h
        cases e? with
        | none =>
          have h2 : depsLoopF gd tk key rest st3 = (st1, none) := h
          rcases List.mem_cons.mp hx with rfl | hx2
          · obtain ⟨_, _, _, hp1⟩ := Hm (normRef x) tk
              { st with
                  names := st.names.set tk (addItem (st.names.get tk) key
                    (normRef x, "@rpath/" ++ (splitPath (normRef x)).2))
                  deps := st.deps ++ [normRef x] }
            rw [hgd] at hp1
            simp only at hp1
            obtain ⟨_, _, _, hp2⟩ := loop_mono Hm tk key rest st3
            have hmem3 : normRef x ∈ st3.deps :=
              hp1.subset (List.mem_append.mpr (Or.inr (List.mem_singleton.mpr rfl)))
            have hfin : normRef x ∈ (depsLoopF gd tk key rest st3).1.deps := hp2.subset hmem3
            rw [h2] at hfin
            simpa using hfin
          · exact ih _ _ h2 x hx2 hvx
        | some err => simp at h
    · exact ih _ _ h x (by
        rcases List.mem_cons.mp hx with rfl | hx2
        · rename_i hnv; exact absurd hvx (by simpa using hnv)
        · exact hx2) hvx

/-! ## Log lemmas: the pipeline appends only non-codesign commands -/

theorem logExt_refl (st : St) : LogExt st st := ⟨[], by simp⟩

theorem logExt_of_eq {st st1 : St} (h : st1.log = st.log) : LogExt st st1 :=
  ⟨[], by simp [h]⟩

theorem logExt_trans {a b c : St} (h1 : LogExt a b) (h2 : LogExt b c) : LogExt a c := by
  obtain ⟨n1, e1, f1⟩ := h1
  obtain ⟨n2, e2, f2⟩ := h2
  refine ⟨n1 ++ n2, by rw [e2, e1, List.append_assoc], ?_⟩
  intro x hx
  rcases List.mem_append.mp hx with h | h
  · exact f1 x h
  · exact f2 x h

theorem andThen_logExt {r : Res} {k : St → Res} {st : St}
    (h0 : LogExt st r.1) (h1 : ∀ s, LogExt s (k s).1) : LogExt st (andThen r k).1 := by
  rcases r with ⟨s, e?⟩
  cases e? with
  | none => exact logExt_trans h0 (h1 s)
  | some e => exact h0

theorem logExt_push (st : St) (w' : World) (x : LogEntry) (hs : isSignE x = false) :
    LogExt st { st with world := w', log := st.log ++ [x] } :=
  ⟨[x], by simp, by simpa using hs⟩

theorem getDepsMany_log (fuel : Nat) (tk : DType) :
    ∀ (files : List String) (st : St), (getDepsMany fuel tk files st).1.log = st.log := by
  intro files
  induction files with
  | nil => intro st; simp [getDepsMany]
  | cons t rest ih =>
    intro st
    simp only [getDepsMany]
    rcases hgd : getDeps fuel t tk st with ⟨st1, e?⟩
    have hl : st1.log = st.log := by
      have := (getDeps_mono fuel t tk st).2.1
      rw [hgd] at this
      exact this
    cases e? with
    | none => rw [ih st1, hl]
    | some e => exact hl

theorem gad_log (f : Fixer) (fuel : Nat) (st : St) :
    (get_all_dependencies f fuel st).1.log = st.log := by
  unfold get_all_dependencies
  rcases h1 : getDeps fuel (pythonDylib f) DType.python_dylib st with ⟨s1, e1⟩
  have hl1 : s1.log = st.log := by
    have := (getDeps_mono fuel (pythonDylib f) DType.python_dylib st).2.1
    rw [h1] at this; exact this
  cases e1 with
  | some e => exact hl1
  | none =>
    simp only [andThen]
    rcases h2 : iterdirW s1.world (libDynload f) with _ | files
    · exact hl1
    · show (andThen (getDepsMany fuel DType.extensions files s1) _).1.log = st.log
      rcases h3 : getDepsMany fuel DType.extensions files s1 with ⟨s2, e2⟩
      have hl2 : s2.log = s1.log := by
        have := getDepsMany_log fuel DType.extensions files s1
        rw [h3] at this; exact this
      cases e2 with
      | some e => exact hl2.trans hl1
      | none =>
        simp only [andThen]
        rcases h4 : iterdirW s2.world (pfxBin f) with _ | files2
        · exact hl2.trans hl1
        · show (andThen (getDepsMany fuel DType.executables files2 s2) _).1.log = st.log
          rcases h5 : getDepsMany fuel DType.executables files2 s2 with ⟨s3, e3⟩
          have hl3 : s3.log = s2.log := by
            have := getDepsMany_log fuel DType.executables files2 s2
            rw [h5] at this; exact this
          cases e3 with
          | some e => exact (hl3.trans hl2).trans hl1
          | none => exact (hl3.trans hl2).trans hl1

theorem doCopy_logExt (st : St) (src dst : String) : LogExt st (doCopy st src dst).1 := by
  unfold doCopy
  rcases lookupW st.world src with _ | b
  · exact logExt_refl st
  · exact ⟨[⟨Cmd.copyf src dst, 0⟩], by simp, by simp [isSignE]⟩

theorem cslLoop_logExt (f : Fixer) :
    ∀ (items : List String) (st : St), LogExt st (cslLoop f items st).1 := by
  intro items
  induction items with
  | nil => intro st; exact logExt_refl st
  | cons i rest ih =>
    intro st
    simp only [cslLoop]
    rcases lookupW st.world _ with _ | b
    · exact ih st
    · rcases hdc : doCopy st _ _ with ⟨s1, e?⟩
      have hext : LogExt st s1 := by
        have := doCopy_logExt st (joinPath (splitPath i).1
          (if (rstripChars (splitPath i).2 ['.', 'd', 'y', 'l', 'i', 'b']).data.contains '.'
           then (splitextPy (rstripChars (splitPath i).2 ['.', 'd', 'y', 'l', 'i', 'b'])).1 ++ ".a"
           else rstripChars (splitPath i).2 ['.', 'd', 'y', 'l', 'i', 'b']))
          (joinPath f.staticlibs_dir
            (if (rstripChars (splitPath i).2 ['.', 'd', 'y', 'l', 'i', 'b']).data.contains '.'
             then (splitextPy (rstripChars (splitPath i).2 ['.', 'd', 'y', 'l', 'i', 'b'])).1 ++ ".a"
             else rstripChars (splitPath i).2 ['.', 'd', 'y', 'l', 'i', 'b']))
        rw [hdc] at this
        exact this
      cases e? with
      | none => exact logExt_trans hext (ih s1)
      | some e => exact hext

theorem cdLoop_logExt (f : Fixer) :
    ∀ (items : List (String × String)) (st : St), LogExt st (cdLoop f items st).1 := by
  intro items
  induction items with
  | nil => intro st; exact logExt_refl st
  | cons i rest ih =>
    intro st
    simp only [cdLoop]
    rcases lookupW st.world _ with _ | b
    · rcases hdc : doCopy st i.1 (joinPath (pfxLib f) (splitPath i.1).2) with ⟨s1, e?⟩
      have hext : LogExt st s1 := by
        have := doCopy_logExt st i.1 (joinPath (pfxLib f) (splitPath i.1).2)
        rw [hdc] at this
        exact this
      cases e? with
      | none => exact logExt_trans hext (ih s1)
      | some e => exact hext
    · exact ih st

theorem cinLoop_logExt (key target : String) :
    ∀ (inner : Inner) (st : St), LogExt st (cinLoop key target inner st).1 := by
  intro inner
  induction inner with
  | nil => intro st; exact logExt_refl st
  | cons kv rest ih =>
    intro st
    obtain ⟨bkey, items⟩ := kv
    simp only [cinLoop]
    rcases unpack2 bkey with _ | ⟨old, nw⟩
    · exact logExt_refl st
    · dsimp only
      split
      · refine logExt_push st _ _ ?_
        unfold cinCmd
        split <;> rfl
      · refine logExt_trans (logExt_push st _ _ ?_) (ih _)
        unfold cinCmd
        split <;> rfl

theorem cin_logExt (f : Fixer) (st : St) : LogExt st (change_install_names f st).1 := by
  unfold change_install_names
  apply andThen_logExt
  · exact cinLoop_logExt _ _ _ st
  · intro s
    apply andThen_logExt
    · exact cinLoop_logExt _ _ _ s
    · intro s2; exact cinLoop_logExt _ _ _ s2

theorem teLoop_logExt (f : Fixer) (target : String) :
    ∀ (entries : List String) (st : St), LogExt st (teLoop f target entries st).1 := by
  intro entries
  induction entries with
  | nil => intro st; exact logExt_refl st
  | cons e rest ih =>
    intro st
    simp only [teLoop]
    split
    · rcases runChange st.world (normRef e) (joinPath f.exec_ref (splitPath (normRef e)).2) target
        with ⟨code, w'⟩
      exact logExt_trans (logExt_push st w' _ (by simp [isSignE])) (ih _)
    · exact ih st

theorem te_logExt (f : Fixer) (target : String) (st : St) :
    LogExt st (transform_exec f target st).1 := by
  unfold transform_exec
  rcases otoolLines st.world target with _ | lines
  · exact logExt_refl st
  · exact teLoop_logExt f target lines st

/-! ## Error behaviour of the install-name rewriting phase -/

theorem cinLoop_ok_log (key target : String) :
    ∀ (inner : Inner) (st st1 : St), cinLoop key target inner st = (st1, none) →
      ∃ nw, st1.log = st.log ++ nw ∧ ∀ x ∈ nw, x.code = 0 := by
  intro inner
  induction inner with
  | nil =>
    intro st st1 h
    simp only [cinLoop, Prod.mk.injEq] at h
    exact ⟨[], by simp [← h.1]⟩
  | cons kv rest ih =>
    intro st st1 h
    obtain ⟨bkey, items⟩ := kv
    simp only [cinLoop] at h
    rcases hu : unpack2 bkey with _ | ⟨old, nw⟩ <;> rw [hu] at h
    · simp at h
    · dsimp only at h
      split at h
      · simp at h
      · rename_i hcode
        obtain ⟨l, hl, hc⟩ := ih _ _ h
        refine ⟨⟨cinCmd key old nw target, (runCmdTool st.world (cinCmd key old nw target)).1⟩ :: l, ?_, ?_⟩
        · rw [hl]; simp
        · intro x hx
          rcases List.mem_cons.mp hx with rfl | hx2
          · simpa using hcode
          · exact hc x hx2

theorem cinLoop_err (key target : String) :
    ∀ (inner : Inner) (st st1 : St) (o n tgt : String),
      cinLoop key target inner st = (st1, some (Err.runtimeChange o n tgt)) →
      tgt = target ∧ ∃ pre k, st1.log = st.log ++ pre ++ [⟨cinCmd key o n tgt, k⟩] ∧
        k ≠ 0 ∧ ∀ x ∈ pre, x.code = 0 := by
  intro inner
  induction inner with
  | nil => intro st st1 o n tgt h; simp [cinLoop] at h
  | cons kv rest ih =>
    intro st st1 o n tgt h
    obtain ⟨bkey, items⟩ := kv
    simp only [cinLoop] at h
    rcases hu : unpack2 bkey with _ | ⟨old, nw⟩ <;> rw [hu] at h
    · simp at h
    · dsimp only at h
      split at h
      · rename_i hcode
        simp only [Prod.mk.injEq, Option.some.injEq, Err.runtimeChange.injEq] at h
        obtain ⟨hst, ho, hn, ht⟩ := h
        refine ⟨ht.symm, [], (runCmdTool st.world (cinCmd key old nw target)).1, ?_,
          by simpa using hcode, by simp⟩
        rw [← hst, ← ho, ← hn, ← ht]
        simp
      · rename_i hcode
        obtain ⟨htgt, pre, k, hl, hk, hc⟩ := ih _ _ _ _ _ h
        refine ⟨htgt, ⟨cinCmd key old nw target, (runCmdTool st.world (cinCmd key old nw target)).1⟩ :: pre, k, ?_, hk, ?_⟩
        · rw [hl]; simp
        · intro x hx
          rcases List.mem_cons.mp hx with rfl | hx2
          · simpa using hcode
          · exact hc x hx2

/-- Amended behaviour of `change_install_names` on a failed rewrite: the
raised error carries the old value, the new value and the target, the failing
command is the last one issued, and every rewrite before it succeeded. -/
theorem cin_err (f : Fixer) (st st1 : St) (o n tgt : String)
    (h : change_install_names f st = (st1, some (Err.runtimeChange o n tgt))) :
    ∃ key pre k, st1.log = st.log ++ pre ++ [⟨cinCmd key o n tgt, k⟩] ∧
      k ≠ 0 ∧ ∀ x ∈ pre, x.code = 0 := by
  unfold change_install_names at h
  rcases h1 : cinLoop "executables" (joinPath f.dest_dir "executables") st.names.executables st
    with ⟨s1, e1⟩
  rw [h1] at h
  cases e1 with
  | some e =>
    simp only [andThen, Prod.mk.injEq, Option.some.injEq] at h
    obtain ⟨hs, he⟩ := h
    subst hs; subst he
    obtain ⟨htgt, pre, k, hl, hk, hc⟩ := cinLoop_err _ _ _ _ _ _ _ _ h1
    exact ⟨"executables", pre, k, hl, hk, hc⟩
  | none =>
    simp only [andThen] at h
    obtain ⟨l1, hl1, hc1⟩ := cinLoop_ok_log _ _ _ _ _ h1
    rcases h2 : cinLoop "extensions" (joinPath f.dest_dir "extensions") s1.names.extensions s1
      with ⟨s2, e2⟩
    rw [h2] at h
    cases e2 with
    | some e =>
      simp only [andThen, Prod.mk.injEq, Option.some.injEq] at h
      obtain ⟨hs, he⟩ := h
      subst hs; subst he
      obtain ⟨htgt, pre, k, hl, hk, hc⟩ := cinLoop_err _ _ _ _ _ _ _ _ h2
      refine ⟨"extensions", l1 ++ pre, k, ?_, hk, ?_⟩
      · rw [hl, hl1]; simp
      · intro x hx
        rcases List.mem_append.mp hx with hx1 | hx2
        · exact hc1 x hx1
        · exact hc x hx2
    | none =>
      simp only [andThen] at h
      obtain ⟨l2, hl2, hc2⟩ := cinLoop_ok_log _ _ _ _ _ h2
      obtain ⟨htgt, pre, k, hl, hk, hc⟩ := cinLoop_err _ _ _ _ _ _ _ _ h
      refine ⟨"python_dylib", l1 ++ l2 ++ pre, k, ?_, hk, ?_⟩
      · rw [hl, hl2, hl1]; simp
      · intro x hx
        rcases List.mem_append.mp hx with hx1 | hx2
        · rcases List.mem_append.mp hx1 with hy1 | hy2
          · exact hc1 x hy1
          · exact hc2 x hy2
        · exact hc x hx2

/-! ## Materialization lemmas -/

theorem cdLoop_dep_list (f : Fixer) :
    ∀ (items : List (String × String)) (st : St), (cdLoop f items st).1.dep_list = st.dep_list := by
  intro items
  induction items with
  | nil => intro st; simp [cdLoop]
  | cons i rest ih =>
    intro st
    simp only [cdLoop]
    rcases hlk : lookupW st.world (joinPath (pfxLib f) (splitPath i.1).2) with _ | b
    · dsimp only
      unfold doCopy
      rcases lookupW st.world i.1 with _ | c
      · rfl
      · exact ih _
    · exact ih st

theorem cdLoop_world_keeps (f : Fixer) :
    ∀ (items : List (String × String)) (st : St) (q : String),
      lookupW st.world q ≠ none → lookupW (cdLoop f items st).1.world q ≠ none := by
  intro items
  induction items with
  | nil => intro st q h; simpa [cdLoop] using h
  | cons i rest ih =>
    intro st q h
    simp only [cdLoop]
    rcases hlk : lookupW st.world (joinPath (pfxLib f) (splitPath i.1).2) with _ | b
    · dsimp only
      unfold doCopy
      rcases lookupW st.world i.1 with _ | c
      · exact h
      · exact ih _ q (by simpa using setW_keeps _ _ h)
    · exact ih st q h

theorem cdLoop_ok_dests (f : Fixer) :
    ∀ (items : List (String × String)) (st st1 : St), cdLoop f items st = (st1, none) →
      ∀ it ∈ items, lookupW st1.world (joinPath (pfxLib f) (splitPath it.1).2) ≠ none := by
  intro items
  induction items with
  | nil => simp
  | cons i rest ih =>
    intro st st1 h it hit
    simp only [cdLoop] at h
    rcases hlk : lookupW st.world (joinPath (pfxLib f) (splitPath i.1).2) with _ | b <;> rw [hlk] at h
    · unfold doCopy at h
      rcases hsrc : lookupW st.world i.1 with _ | c <;> rw [hsrc] at h
      · simp at h
      · dsimp only at h
        rcases List.mem_cons.mp hit with rfl | hit2
        · have hkeep : lookupW (setW st.world (joinPath (pfxLib f) (splitPath it.1).2)
              { c with writable := true }) (joinPath (pfxLib f) (splitPath it.1).2) ≠ none := by
            rw [lookup_setW]
            simp
          have hthis := cdLoop_world_keeps f rest ({ st with world := setW st.world (joinPath (pfxLib f) (splitPath it.1).2) { c with writable := true }, log := st.log ++ [⟨Cmd.copyf it.1 (joinPath (pfxLib f) (splitPath it.1).2), 0⟩] }) (joinPath (pfxLib f) (splitPath it.1).2) hkeep
          rw [h] at hthis
          exact hthis
        · exact ih _ _ h it hit2
    · have h2 : cdLoop f rest st = (st1, none) := h
      rcases List.mem_cons.mp hit with rfl | hit2
      · have hthis := cdLoop_world_keeps f rest st (joinPath (pfxLib f) (splitPath it.1).2)
          (by rw [hlk]; simp)
        rw [h2] at hthis
        exact hthis
      · exact ih _ _ h2 it hit2

theorem cdLoop_noop (f : Fixer) :
    ∀ (items : List (String × String)) (st : St),
      (∀ it ∈ items, lookupW st.world (joinPath (pfxLib f) (splitPath it.1).2) ≠ none) →
      cdLoop f items st = (st, none) := by
  intro items
  induction items with
  | nil => intro st _; rfl
  | cons i rest ih =>
    intro st h
    simp only [cdLoop]
    rcases hlk : lookupW st.world (joinPath (pfxLib f) (splitPath i.1).2) with _ | b
    · exact absurd hlk (h i (List.mem_cons_self _ _))
    · exact ih st (fun it hit => h it (List.mem_cons_of_mem _ hit))

theorem cdLoop_frame (f : Fixer) :
    ∀ (items : List (String × String)) (st : St) (q : String),
      lookupW (cdLoop f items st).1.world q ≠ lookupW st.world q →
      ∃ it ∈ items, q = joinPath (pfxLib f) (splitPath it.1).2 := by
  intro items
  induction items with
  | nil => intro st q h; simp [cdLoop] at h
  | cons i rest ih =>
    intro st q h
    simp only [cdLoop] at h
    rcases hlk : lookupW st.world (joinPath (pfxLib f) (splitPath i.1).2) with _ | b <;> rw [hlk] at h
    · unfold doCopy at h
      rcases hsrc : lookupW st.world i.1 with _ | c <;> rw [hsrc] at h
      · exact absurd rfl h
      · dsimp only at h
        by_cases hq : q = joinPath (pfxLib f) (splitPath i.1).2
        · exact ⟨i, List.mem_cons_self _ _, hq⟩
        · have hpres : lookupW (setW st.world (joinPath (pfxLib f) (splitPath i.1).2)
              { c with writable := true }) q = lookupW st.world q := by
            rw [lookup_setW, if_neg hq]
          by_cases hch : lookupW (cdLoop f rest ({ st with world := setW st.world (joinPath (pfxLib f) (splitPath i.1).2) { c with writable := true }, log := st.log ++ [⟨Cmd.copyf i.1 (joinPath (pfxLib f) (splitPath i.1).2), 0⟩] })).1.world q = lookupW (setW st.world (joinPath (pfxLib f) (splitPath i.1).2) { c with writable := true }) q
          · exfalso
            apply h
            rw [hch]
            exact hpres
          · obtain ⟨it, hit, hq2⟩ := ih _ q hch
            exact ⟨it, List.mem_cons_of_mem _ hit, hq2⟩
    · obtain ⟨it, hit, hq2⟩ := ih _ q h
      exact ⟨it, List.mem_cons_of_mem _ hit, hq2⟩

/-- A successful scan records every valid reference of the scanned binary,
in normalized form. -/
theorem getDeps_records (fuel : Nat) (tgt : String) (tk : DType) (st st1 : St) (b : Bin)
    (e : String) (hb : lookupW st.world tgt = some b) (he : e ∈ otoolList b)
    (hv : is_valid_path (splitPath e).1 = true)
    (h : getDeps fuel tgt tk st = (st1, none)) : normRef e ∈ st1.deps := by
  cases fuel with
  | zero => simp [getDeps] at h
  | succ n =>
    simp only [getDeps] at h
    have hol : otoolLines st.world tgt = some (otoolList b) := by
      unfold otoolLines
      rw [hb]
      rfl
    rw [hol] at h
    dsimp only at h
    exact loop_records (getDeps_mono n) tk (baseName tgt) (otoolList b) _ _ h e he hv

/-- `copy_dylibs` does not read `dest_dir`. -/
theorem cdLoop_dd (f : Fixer) (d : String) :
    ∀ (items : List (String × String)) (st : St),
      cdLoop { f with dest_dir := d } items st = cdLoop f items st := by
  intro items
  induction items with
  | nil => intro st; rfl
  | cons i rest ih =>
    intro st
    simp only [cdLoop]
    have hp : pfxLib { f with dest_dir := d } = pfxLib f := rfl
    rw [hp]
    rcases lookupW st.world (joinPath (pfxLib f) (splitPath i.1).2) with _ | b
    · dsimp only
      unfold doCopy
      rcases lookupW st.world i.1 with _ | c
      · rfl
      · exact ih _
    · exact ih st

theorem process_logExt (f : Fixer) (fuel : Nat) (st : St) :
    LogExt st (process f fuel st).1 := by
  unfold process
  apply andThen_logExt
  · exact logExt_of_eq (gad_log f fuel st)
  intro s1
  apply andThen_logExt
  · exact logExt_refl _
  intro s2
  apply andThen_logExt
  · unfold copy_staticlibs
    split
    · exact logExt_refl _
    · exact cslLoop_logExt f s2.deps s2
  intro s3
  apply andThen_logExt
  · exact cdLoop_logExt f s3.dep_list s3
  intro s4
  apply andThen_logExt
  · exact cin_logExt f s4
  intro s5
  exact te_logExt f "./eg" s5

/-- Helper for the classification claim: any path whose second character
differs from those of all four configured local prefixes is classified
non-local. -/
theorem ivp_false_of_snd (p : String) (c2 : Char) (rest : List Char)
    (hdata : p.data = '/' :: c2 :: rest)
    (h1 : (('o' : Char) == c2) = false) (h2 : (('u' : Char) == c2) = false)
    (h3 : (('U' : Char) == c2) = false) (h4 : (('t' : Char) == c2) = false) :
    is_valid_path p = false := by
  have hne : (p == "") = false := by
    refine beq_eq_false_iff_ne.mpr ?_
    intro hcon
    rw [hcon] at hdata
    exact absurd hdata (by simp)
  have g1 : chPre "/opt/local/".data ('/' :: c2 :: rest) = false := chPre_snd _ _ _ _ _ h1
  have g2 : chPre "/usr/local/".data ('/' :: c2 :: rest) = false := chPre_snd _ _ _ _ _ h2
  have g3 : chPre "/Users/".data ('/' :: c2 :: rest) = false := chPre_snd _ _ _ _ _ h3
  have g4 : chPre "/tmp/".data ('/' :: c2 :: rest) = false := chPre_snd _ _ _ _ _ h4
  unfold is_valid_path hasPre
  rw [hdata, hne, g1, g2, g3, g4]
  rfl

/-! ## The claims -/

/-- Claim C1 (code bug): on the concrete world `procWorld`, `Fixer.process`
completes without raising, yet re-scanning the copied library
`fw/Versions/v/lib/zz` with `get_target_references` still returns the LOCAL
reference `/usr/local/lib/zz` — `change_install_names` rewrites only the
three fixed paths `dest_dir/executables|extensions|python_dylib` and
`transform_exec` only `./eg`, so copied libraries keep their local install
names and the round-trip success criterion fails. -/
theorem c1_process_leaves_local_refs :
    (process fx 12 (st0 procWorld)).2 = none ∧
    get_target_references (process fx 12 (st0 procWorld)).1.world
      (joinPath (pfxLib fx) "zz") = some ["/usr/local/lib/zz"] :=
  ⟨rfl, rfl⟩

/-- Claim C2: `is_valid_path p` is true exactly when `p` is empty or starts
with one of `/opt/local/`, `/usr/local/`, `/Users/`, `/tmp/`; any path under
`/System/` or `/Library/` outside those prefixes is classified non-local. -/
theorem c2_is_valid_path_iff (p : String) :
    (is_valid_path p = true ↔
      (p = "" ∨ hasPre p "/opt/local/" = true ∨ hasPre p "/usr/local/" = true ∨
        hasPre p "/Users/" = true ∨ hasPre p "/tmp/" = true)) ∧
    (hasPre p "/System/" = true → is_valid_path p = false) ∧
    (hasPre p "/Library/" = true → is_valid_path p = false) := by
  refine ⟨?_, ?_, ?_⟩
  · unfold is_valid_path
    simp only [Bool.or_eq_true, beq_iff_eq]
    tauto
  · intro h
    obtain ⟨t, ht⟩ := chPre_ex _ _ h
    exact ivp_false_of_snd p 'S' ("ystem/".data ++ t) ht (by decide) (by decide) (by decide)
      (by decide)
  · intro h
    obtain ⟨t, ht⟩ := chPre_ex _ _ h
    exact ivp_false_of_snd p 'L' ("ibrary/".data ++ t) ht (by decide) (by decide) (by decide)
      (by decide)

/-- Witness for claim C2 at concrete paths. -/
theorem c2_is_valid_path_iff_check :
    is_valid_path "/usr/local/lib/libz.dylib" = true ∧
    is_valid_path "/System/Library/Frameworks/CoreMIDI.framework/CoreMIDI" = false ∧
    is_valid_path "/Library/Frameworks/Python.framework/Python" = false :=
  ⟨(c2_is_valid_path_iff "/usr/local/lib/libz.dylib").1.mpr
      (Or.inr (Or.inr (Or.inl (by decide)))),
   (c2_is_valid_path_iff "/System/Library/Frameworks/CoreMIDI.framework/CoreMIDI").2.1
      (by decide),
   (c2_is_valid_path_iff "/Library/Frameworks/Python.framework/Python").2.2 (by decide)⟩

/-- Claim C3: on any dependency graph, cyclic ones included, the recursive
traversal `get_dependencies` terminates with fuel one past the number of
discoverable local paths, and on success each distinct resolved source path
is recorded once (`deps` has no duplicates) and expanded once (the expansion
trace is exactly the root followed by the recorded paths, in order): a path
already in the seen list is never re-expanded. -/
theorem c3_get_dependencies_terminates_once (w : World) (target : String) (tk : DType) :
    (getDeps ((univLocal w).length + 1) target tk (st0 w)).2 ≠ some Err.fuelOut ∧
    ∀ st1, getDeps ((univLocal w).length + 1) target tk (st0 w) = (st1, none) →
      st1.deps.Nodup ∧ st1.trace = target :: st1.deps := by
  constructor
  · apply getDeps_fuel
    show countLeft w [] < (univLocal w).length + 1
    rw [cl_empty]
    exact Nat.lt_succ_self _
  · intro st1 h
    obtain ⟨d, h1, h2, h3, h4, h5⟩ := getDeps_delta _ _ _ _ _ h
    constructor
    · rw [h1]
      simpa [st0] using h3
    · rw [h2, h1]
      simp [st0]

/-- Witness for claim C3 on the cyclic graph `B links C links B`: the
traversal terminates, records each of B and C exactly once, and the
expansion trace is the root followed by the two recorded paths. -/
theorem c3_get_dependencies_terminates_once_check :
    (getDeps ((univLocal cycleWorld).length + 1) "A" DType.executables (st0 cycleWorld)).2 ≠
      some Err.fuelOut ∧
    (getDeps ((univLocal cycleWorld).length + 1) "A" DType.executables (st0 cycleWorld)).1.deps.Nodup ∧
    (getDeps ((univLocal cycleWorld).length + 1) "A" DType.executables (st0 cycleWorld)).1.trace =
      "A" :: (getDeps ((univLocal cycleWorld).length + 1) "A" DType.executables (st0 cycleWorld)).1.deps ∧
    (getDeps ((univLocal cycleWorld).length + 1) "A" DType.executables (st0 cycleWorld)).1.deps =
      ["/usr/local/lib/B", "/usr/local/lib/C"] := by
  have h := c3_get_dependencies_terminates_once cycleWorld "A" DType.executables
  have hrun : getDeps ((univLocal cycleWorld).length + 1) "A" DType.executables (st0 cycleWorld) =
      ((getDeps ((univLocal cycleWorld).length + 1) "A" DType.executables (st0 cycleWorld)).1, none) := rfl
  exact ⟨h.1, (h.2 _ hrun).1, (h.2 _ hrun).2, by decide⟩

/-- Claim C4 (code bug): two distinct discovered source paths with the same
basename raise no error anywhere in the pipeline — both are recorded in
`dependencies`, `copy_dylibs` copies the first and silently skips the
second because the destination already exists, and exactly one copy is
performed. -/
theorem c4_collision_silently_skipped :
    (getDeps 5 "t" DType.executables (st0 collideWorld)).2 = none ∧
    collideSt.deps = ["/usr/local/lib/x.dylib", "/opt/local/lib/x.dylib"] ∧
    (copy_dylibs fx (process_deps collideSt).1).2 = none ∧
    lookupW (copy_dylibs fx (process_deps collideSt).1).1.world
      (joinPath (pfxLib fx) "x.dylib") = some ⟨none, ["/usr/lib/one"], true⟩ ∧
    (copy_dylibs fx (process_deps collideSt).1).1.log.countP (fun x => isCopyE x) = 1 :=
  ⟨rfl, rfl, rfl, rfl, rfl⟩

/-- Claim C5 (code bug): `Fixer.process` performs no signature repair at
all: no run of the pipeline ever issues a codesign command, on any world. -/
theorem c5_process_never_signs (f : Fixer) (fuel : Nat) (st : St) :
    countSigns (process f fuel st).1.log = countSigns st.log := by
  obtain ⟨nw, hl, hns⟩ := process_logExt f fuel st
  rw [hl]
  unfold countSigns
  rw [List.countP_append]
  have hz : nw.countP (fun x => isSignE x) = 0 := by
    rw [List.countP_eq_zero]
    intro a ha
    simp [hns a ha]
  omega

/-- Claim C6: the rewrite style chosen by `change_install_names` for a pair
(old, new) on a target with key `key` is the id-style rewrite exactly when
`key` equals the basename of the old reference, and the change-style rewrite
otherwise. -/
theorem c6_rewrite_dispatch (key old nw target : String) :
    (key = (splitPath old).2 → cinCmd key old nw target = Cmd.setid nw target) ∧
    (key ≠ (splitPath old).2 → cinCmd key old nw target = Cmd.change old nw target) := by
  unfold cinCmd
  constructor
  · intro h; rw [if_pos h]
  · intro h; rw [if_neg h]

/-- Witness for claim C6: a self-reference gets the id-style rewrite, a
cross-reference the change-style rewrite. -/
theorem c6_rewrite_dispatch_check :
    cinCmd "libz.dylib" "/usr/local/lib/libz.dylib" "@rpath/libz.dylib" "d/python_dylib" =
      Cmd.setid "@rpath/libz.dylib" "d/python_dylib" ∧
    cinCmd "executables" "a" "b" "d/executables" = Cmd.change "a" "b" "d/executables" :=
  ⟨(c6_rewrite_dispatch "libz.dylib" "/usr/local/lib/libz.dylib" "@rpath/libz.dylib"
      "d/python_dylib").1 (by decide),
   (c6_rewrite_dispatch "executables" "a" "b" "d/executables").2 (by decide)⟩

/-- Claim C7 counterexample: `transform_exec` ignores the exit status of the
rewrite tool — on a world whose executable is unwritable both change-rewrites
exit non-zero, nothing is raised, and the second rewrite is still performed
after the first failure. -/
theorem c7_transform_exec_ignores_failures :
    (transform_exec fx "./eg" (st0 execWorld)).2 = none ∧
    (transform_exec fx "./eg" (st0 execWorld)).1.log.map (fun x => x.code) = [1, 1] :=
  ⟨rfl, rfl⟩

/-- Claim C7 (amended): when a rewrite issued by `change_install_names`
exits non-zero, the raised error carries the old value, the new value and
the target path, the failing command is the last one issued, and every
rewrite before it succeeded; `transform_exec` however ignores exit
statuses. -/
theorem c7_change_install_names_raises (f : Fixer) (st st1 : St) (o n tgt : String)
    (h : change_install_names f st = (st1, some (Err.runtimeChange o n tgt))) :
    ∃ key pre k, st1.log = st.log ++ pre ++ [⟨cinCmd key o n tgt, k⟩] ∧
      k ≠ 0 ∧ ∀ x ∈ pre, x.code = 0 :=
  cin_err f st st1 o n tgt h

/-- Witness for the amended claim C7 on a concrete failing rewrite. -/
theorem c7_change_install_names_raises_check :
    ∃ key pre k, (change_install_names fx cinFailSt).1.log =
      cinFailSt.log ++ pre ++ [⟨cinCmd key "a" "b" "d/executables", k⟩] ∧
      k ≠ 0 ∧ ∀ x ∈ pre, x.code = 0 :=
  c7_change_install_names_raises fx cinFailSt _ "a" "b" "d/executables" rfl

/-- Claim C8: materialization is idempotent — if `copy_dylibs` completes,
running it again from the resulting state is a no-op: it returns the same
state unchanged and raises no error, since every destination now exists. -/
theorem c8_copy_dylibs_idempotent (f : Fixer) (st st1 : St)
    (h : copy_dylibs f st = (st1, none)) : copy_dylibs f st1 = (st1, none) := by
  unfold copy_dylibs at h ⊢
  have hdl : st1.dep_list = st.dep_list := by
    have hx := cdLoop_dep_list f st.dep_list st
    rw [h] at hx
    exact hx
  rw [hdl]
  exact cdLoop_noop f st.dep_list st1 (cdLoop_ok_dests f st.dep_list st st1 h)

/-- Witness for claim C8 on a concrete world. -/
theorem c8_copy_dylibs_idempotent_check :
    copy_dylibs fx (copy_dylibs fx copySt).1 = ((copy_dylibs fx copySt).1, none) :=
  c8_copy_dylibs_idempotent fx copySt (copy_dylibs fx copySt).1 rfl

/-- Claim C9: during dependency scanning, a reference with an empty
directory component is normalized to `/usr/local/lib/<basename>` before
being recorded or expanded — it is recorded in that form, and no recorded
dependency ever has an empty directory component, so a bare name is never
interpreted relative to the current directory. -/
theorem c9_empty_dirname_normalized (w : World) (tgt : String) (tk : DType) (b : Bin)
    (e : String) (st1 : St) (fuel : Nat) (hb : lookupW w tgt = some b)
    (he : e ∈ otoolList b) (hd : (splitPath e).1 = "")
    (h : getDeps fuel tgt tk (st0 w) = (st1, none)) :
    joinPath "/usr/local/lib" (splitPath e).2 ∈ st1.deps ∧
    ∀ p ∈ st1.deps, (splitPath p).1 ≠ "" := by
  have hv : is_valid_path (splitPath e).1 = true := by rw [hd]; rfl
  have h1 := getDeps_records fuel tgt tk (st0 w) st1 b e hb he hv h
  constructor
  · have hn : normRef e = joinPath "/usr/local/lib" (splitPath e).2 := by
      unfold normRef
      rw [if_pos hd]
    rw [← hn]
    exact h1
  · obtain ⟨d, g1, g2, g3, g4, g5⟩ := getDeps_delta fuel tgt tk (st0 w) st1 h
    intro p hp
    rw [g1] at hp
    exact g5 p (by simpa [st0] using hp)

/-- Witness for claim C9: the bare reference `libfoo.dylib` is recorded as
`/usr/local/lib/libfoo.dylib`. -/
theorem c9_empty_dirname_normalized_check :
    joinPath "/usr/local/lib" (splitPath "libfoo.dylib").2 ∈
      (getDeps 3 "X" DType.executables (st0 bareWorld)).1.deps ∧
    ∀ p ∈ (getDeps 3 "X" DType.executables (st0 bareWorld)).1.deps, (splitPath p).1 ≠ "" :=
  c9_empty_dirname_normalized bareWorld "X" DType.executables ⟨none, ["libfoo.dylib"], true⟩
    "libfoo.dylib" _ 3 rfl (by decide) (by decide) rfl

/-- Claim C10: the only files `copy_dylibs` creates or modifies are at
`prefix_lib/<basename of a source in dep_list>`, and the phase does not read
`dest_dir` at all — changing `dest_dir` leaves its result untouched
(`dest_dir` is consumed only by `change_install_names` to form rewrite
targets). -/
theorem c10_copy_dylibs_frame (f : Fixer) (st st1 : St) (e? : Option Err) (d : String)
    (h : copy_dylibs f st = (st1, e?)) :
    (∀ q, lookupW st1.world q ≠ lookupW st.world q →
      ∃ it ∈ st.dep_list, q = joinPath (pfxLib f) (splitPath it.1).2) ∧
    copy_dylibs { f with dest_dir := d } st = copy_dylibs f st := by
  have hc : cdLoop f st.dep_list st = (st1, e?) := h
  constructor
  · intro q hq
    apply cdLoop_frame f st.dep_list st q
    rw [hc]
    exact hq
  · unfold copy_dylibs
    exact cdLoop_dd f d st.dep_list st

/-- Witness for claim C10: on a concrete world the changed path is the
`prefix_lib` destination of the single dependency, and changing `dest_dir`
does not alter the result of `copy_dylibs`. -/
theorem c10_copy_dylibs_frame_check :
    copy_dylibs { fx with dest_dir := "X" } copySt = copy_dylibs fx copySt ∧
    ∃ it ∈ copySt.dep_list,
      "fw/Versions/v/lib/a.dylib" = joinPath (pfxLib fx) (splitPath it.1).2 := by
  have h := c10_copy_dylibs_frame fx copySt (copy_dylibs fx copySt).1 none "X" rfl
  exact ⟨h.2, h.1 "fw/Versions/v/lib/a.dylib" (by decide)⟩

end Maxutils
